import Mathlib

/-!
Verification of the weight-based backtest engine
(`czsc/traders/weight_backtest.py`) against its specification.

The pandas/numpy code is shallowly embedded over exact rationals:

* a float `NaN` (produced by `shift` at a series boundary) is modelled as
  `none : Option ℚ`; arithmetic on columns propagates `none`, and pandas
  `sum`/`cumsum`/`cummin` skip `none` entries (`skipna=True` semantics);
* one claim (C4) is about float64 representation error itself, so for that
  claim binary64 rounding is modelled explicitly on ℚ (`fl64`);
* Python `round(x, 2)` rounds half to even (`rne`, `round2`);
* the Chinese operate/direction labels (strings in the source, used only as
  tags) are embedded as the enumerations `OpKind` and `Dir`.
-/

/-- Option-valued addition: `NaN + x = NaN` (pandas elementwise arithmetic). -/
def oAdd (a b : Option ℚ) : Option ℚ := a.bind fun x => b.map fun y => x + y

/-- Option-valued subtraction: `NaN - x = NaN` (pandas elementwise arithmetic). -/
def oSub (a b : Option ℚ) : Option ℚ := a.bind fun x => b.map fun y => x - y

/-- Floor of a rational as `num / den` (Euclidean division); an executable
unfolding of `⌊q⌋`. -/
def qfloor (q : ℚ) : ℤ := q.num / q.den

/-- Ceiling of a rational, as `-⌊-q⌋`. -/
def qceil (q : ℚ) : ℤ := -qfloor (-q)

theorem qfloor_eq (q : ℚ) : qfloor q = ⌊q⌋ := (Rat.floor_def).symm

theorem qceil_eq (q : ℚ) : qceil q = ⌈q⌉ := by
  rw [qceil, qfloor_eq, Int.floor_neg, neg_neg]

/-- Round half to even (Python `round` / IEEE-754 default rounding), ℚ → ℤ. -/
def rne (q : ℚ) : ℤ :=
  let f := qfloor q
  let r := q - f
  if r < 1/2 then f
  else if 1/2 < r then f + 1
  else if f % 2 = 0 then f else f + 1

/-- Python `round(x, 2)`: round to 2 decimal places, half to even. -/
def round2 (q : ℚ) : ℚ := (rne (q * 100) : ℚ) / 100

/-- Truncation toward zero, the behaviour of numpy `.astype(int)` on a float value. -/
def ratTrunc (q : ℚ) : ℤ := if 0 ≤ q then qfloor q else qceil q

theorem ratTrunc_def (q : ℚ) : ratTrunc q = if 0 ≤ q then ⌊q⌋ else ⌈q⌉ := by
  simp only [ratTrunc, qfloor_eq, qceil_eq]

theorem rne_def (q : ℚ) :
    rne q = if q - ⌊q⌋ < 1/2 then ⌊q⌋
      else if 1/2 < q - ⌊q⌋ then ⌊q⌋ + 1
      else if ⌊q⌋ % 2 = 0 then ⌊q⌋ else ⌊q⌋ + 1 := by
  simp only [rne, qfloor_eq]

/-- Round a rational to the nearest binary64 value (normal range only; all
inputs considered in this development are normal).  `Int.log 2 |q|` is the
exponent `e` with `2^e ≤ |q| < 2^(e+1)`; the significand is rounded to 53 bits
half-to-even.  Models the value a Python/numpy float64 holds for an exact
rational. -/
def fl64 (q : ℚ) : ℚ :=
  if q = 0 then 0
  else
    let e : ℤ := Int.log 2 |q|
    (rne (q * 2 ^ (52 - e)) : ℚ) * 2 ^ (e - 52)

/-- The `volume` column of `get_symbol_pairs` with float64 arithmetic made
explicit: `(dfs["weight"] * pow(10, digits)).astype(int)` where `weight` is
the float64 nearest the exact input weight and the product is rounded to
float64 before truncation. -/
def volumeFloat (w : ℚ) (digits : ℕ) : ℤ := ratTrunc (fl64 (fl64 w * 10 ^ digits))

/-! ## Trade-pair reconstruction (`WeightBacktest.get_symbol_pairs`)

The per-symbol slice of the weight table is a list of `WRow`; timestamps are
abstracted as integers (only their ordering and differences are used).
Everywhere except `volumeFloat` (claim C4) the `volume` column is the exact
truncation `ratTrunc (weight * 10^digits)`, which coincides with the float64
computation whenever the float64 product truncates like the exact product. -/

/-- The four operate labels `开多` (open long), `开空` (open short),
`平多` (close long), `平空` (close short). -/
inductive OpKind where
  | openLong
  | openShort
  | closeLong
  | closeShort
deriving DecidableEq

/-- Trade direction labels `多头` (long) / `空头` (short). -/
inductive Dir where
  | long
  | short
deriving DecidableEq

/-- One row of the per-symbol input slice: `(dt, weight, price)`. -/
structure WRow where
  dt : ℤ
  weight : ℚ
  price : ℚ
deriving DecidableEq

/-- One row after the `volume`/`bar_id` columns are added. -/
structure Row where
  bar : ℤ
  dt : ℤ
  volume : ℤ
  price : ℚ
deriving DecidableEq

/-- One open/close unit-lot event (an element of the `operates` list). -/
structure Op where
  bar : ℤ
  dt : ℤ
  price : ℚ
  operate : OpKind
deriving DecidableEq

/-- A matched open/close trade pair.  `evSeq` is the `"open -> close"` label
pair of the source's `事件序列` field. -/
structure Pair where
  symbol : String
  direction : Dir
  openDt : ℤ
  closeDt : ℤ
  openPrice : ℚ
  closePrice : ℚ
  barsHeld : ℤ
  evSeq : OpKind × OpKind
  daysHeld : ℤ
  retBps : ℚ
deriving DecidableEq

/-- `__add_operate`: append `abs volume` unit events with the given label. -/
def addOp (bar dt : ℤ) (price : ℚ) (volume : ℤ) (operate : OpKind) : List Op :=
  List.replicate volume.natAbs ⟨bar, dt, price, operate⟩

/-- Events emitted for the first row of the slice. -/
def firstOps (r : Row) : List Op :=
  if r.volume > 0 then addOp r.bar r.dt r.price r.volume .openLong
  else if r.volume < 0 then addOp r.bar r.dt r.price r.volume .openShort
  else []

/-- Events emitted for one consecutive pair of rows `(row1, row2)`. -/
def transOps (r1 r2 : Row) : List Op :=
  if r1.volume ≥ 0 ∧ r2.volume ≥ 0 then
    if r2.volume > r1.volume then addOp r2.bar r2.dt r2.price (r2.volume - r1.volume) .openLong
    else if r2.volume < r1.volume then addOp r2.bar r2.dt r2.price (r1.volume - r2.volume) .closeLong
    else []
  else if r1.volume ≤ 0 ∧ r2.volume ≤ 0 then
    if r2.volume > r1.volume then addOp r2.bar r2.dt r2.price (r1.volume - r2.volume) .closeShort
    else if r2.volume < r1.volume then addOp r2.bar r2.dt r2.price (r2.volume - r1.volume) .openShort
    else []
  else if r1.volume ≥ 0 ∧ 0 ≥ r2.volume then
    addOp r2.bar r2.dt r2.price r1.volume .closeLong ++ addOp r2.bar r2.dt r2.price r2.volume .openShort
  else if r1.volume ≤ 0 ∧ 0 ≤ r2.volume then
    addOp r2.bar r2.dt r2.price r1.volume .closeShort ++ addOp r2.bar r2.dt r2.price r2.volume .openLong
  else []

/-- Events of `zip(rows[:-1], rows[1:])` processed in order. -/
def restOps : List Row → List Op
  | r1 :: r2 :: tl => transOps r1 r2 ++ restOps (r2 :: tl)
  | _ => []

/-- All events of a slice: first row, then consecutive transitions.  The
per-symbol slice is never empty in the source (symbols are read off `dfw`). -/
def genOps : List Row → List Op
  | [] => []
  | r :: tl => firstOps r ++ restOps (r :: tl)

/-- Add `volume` and `bar_id` columns (`bar_id` counts from 1). -/
def buildRows (digits : ℕ) (k : ℤ) : List WRow → List Row
  | [] => []
  | x :: xs => ⟨k, x.dt, ratTrunc (x.weight * 10 ^ digits), x.price⟩ :: buildRows digits (k + 1) xs

/-- Build the pair record for a matched open event and close event.  The
`days_held` field of the source is the day difference of two datetimes; with
timestamps abstracted as integer day counts it is the plain difference. -/
def mkPair (symbol : String) (o c : Op) : Pair :=
  match o.operate with
  | .openLong =>
    { symbol := symbol, direction := .long, openDt := o.dt, closeDt := c.dt,
      openPrice := o.price, closePrice := c.price, barsHeld := c.bar - o.bar + 1,
      evSeq := (o.operate, c.operate), daysHeld := c.dt - o.dt,
      retBps := round2 ((c.price - o.price) / o.price * 10000) }
  | _ =>
    { symbol := symbol, direction := .short, openDt := o.dt, closeDt := c.dt,
      openPrice := o.price, closePrice := c.price, barsHeld := c.bar - o.bar + 1,
      evSeq := (o.operate, c.operate), daysHeld := c.dt - o.dt,
      retBps := round2 ((o.price - c.price) / o.price * 10000) }

/-- The two failure modes of the matching loop: `popEmpty` is the Python
`IndexError` of `opens.pop()` on an empty list; `assertFail` is the
`AssertionError` of the `assert op["operate"] in ["平多", "平空"]` line. -/
inductive MatchErr where
  | popEmpty
  | assertFail
deriving DecidableEq

/-- The open/close matching loop over the `operates` list: opens are pushed on
a stack, each close pops the most recent open.  The source dispatches on the
label strings (`if op["operate"] in ["开多", "开空"]: push/continue`, then
`assert op["operate"] in ["平多", "平空"]`, then `opens.pop()`); with the
four-valued label type this is a case dispatch, the assert cannot fail
(`MatchErr.assertFail` would be its failure), and popping an empty stack
fails with `MatchErr.popEmpty` (the Python `IndexError`). -/
def matchLoop (symbol : String) : List Op → List Op → List Pair → Except MatchErr (List Pair)
  | [], _, acc => .ok acc
  | op :: rest, stack, acc =>
    match op.operate with
    | .openLong | .openShort => matchLoop symbol rest (op :: stack) acc
    | .closeLong | .closeShort =>
      match stack with
      | [] => .error .popEmpty
      | o :: st => matchLoop symbol rest st (acc ++ [mkPair symbol o op])

/-- `WeightBacktest.get_symbol_pairs` for one symbol's slice. -/
def getSymbolPairs (symbol : String) (digits : ℕ) (l : List WRow) : Except MatchErr (List Pair) :=
  matchLoop symbol (genOps (buildRows digits 1 l)) [] []

/-! ## Helper lemmas -/

/-- Characterise `Int.log 2` by the two power bounds. -/
lemma intLog_eq_of_bounds {e : ℤ} {r : ℚ} (hr : 0 < r)
    (h1 : (2:ℚ) ^ e ≤ r) (h2 : r < (2:ℚ) ^ (e + 1)) : Int.log 2 r = e := by
  have hb : 1 < 2 := one_lt_two
  have hle : e ≤ Int.log 2 r := by
    rw [← Int.zpow_le_iff_le_log hb hr]
    exact_mod_cast h1
  have hlt : Int.log 2 r < e + 1 := by
    rw [← Int.lt_zpow_iff_log_lt hb hr]
    exact_mod_cast h2
  omega

/-- The binary64 value nearest to 0.57 (the decimal literal the user writes). -/
lemma fl64_057 : fl64 (57/100) = 5134103575202365 / 2 ^ 53 := by
  have hlog : Int.log 2 |(57:ℚ)/100| = -1 := by
    rw [abs_of_pos (by norm_num)]
    exact intLog_eq_of_bounds (by norm_num) (by norm_num) (by norm_num)
  rw [fl64, if_neg (by norm_num), hlog]
  norm_num [rne_def]

/-- The rounded binary64 product `float64(0.57) * 100`, which is strictly
below 57. -/
lemma fl64_057_times_100 :
    fl64 ((5134103575202365 / 2 ^ 53 : ℚ) * 10 ^ 2) = 8022036836253695 / 2 ^ 47 := by
  have hlog : Int.log 2 |(5134103575202365 / 2 ^ 53 : ℚ) * 10 ^ 2| = 5 := by
    rw [abs_of_pos (by norm_num)]
    exact intLog_eq_of_bounds (by norm_num) (by norm_num) (by norm_num)
  rw [fl64, if_neg (by norm_num), hlog]
  norm_num [rne_def]

/-! ## Claim theorems: trade-pair reconstruction -/

/-- C6: LIFO matching.  Opening one unit (weight 0.01), a second unit
(weight 0.02), then closing one unit and finally the rest: the pair closed
first carries the *most recently* opened unit's price `p1` as its open price,
and the remaining pair matches the earliest open `p0` with the last close —
for any prices whatsoever.  FIFO matching would give `(p0, p3), (p1, p4)`
instead. -/
theorem c6_lifo_pairs (p0 p1 p2 p3 p4 : ℚ) :
    (getSymbolPairs "X" 2
        [⟨0, 1/100, p0⟩, ⟨1, 2/100, p1⟩, ⟨2, 2/100, p2⟩, ⟨3, 1/100, p3⟩, ⟨4, 0, p4⟩]).map
      (fun ps => ps.map (fun p => (p.openPrice, p.closePrice))) = .ok [(p1, p3), (p0, p4)] := by
  norm_num [getSymbolPairs, buildRows, genOps, restOps, firstOps, transOps, addOp, matchLoop,
    mkPair, ratTrunc_def, Except.map]

/-- C8: a sign flip between consecutive bars emits close lots for the whole
previous volume at the *current* bar's price and then open lots for the whole
new volume at that same price, in both flip directions. -/
theorem c8_flip_pricing (r1 r2 : Row) :
    (r1.volume > 0 → r2.volume < 0 →
      transOps r1 r2 =
        List.replicate r1.volume.natAbs ⟨r2.bar, r2.dt, r2.price, .closeLong⟩ ++
        List.replicate r2.volume.natAbs ⟨r2.bar, r2.dt, r2.price, .openShort⟩) ∧
    (r1.volume < 0 → r2.volume > 0 →
      transOps r1 r2 =
        List.replicate r1.volume.natAbs ⟨r2.bar, r2.dt, r2.price, .closeShort⟩ ++
        List.replicate r2.volume.natAbs ⟨r2.bar, r2.dt, r2.price, .openLong⟩) := by
  constructor
  · intro h1 h2
    rw [transOps, if_neg (by omega), if_neg (by omega), if_pos ⟨by omega, by omega⟩, addOp, addOp]
  · intro h1 h2
    rw [transOps, if_neg (by omega), if_neg (by omega), if_neg (by omega),
      if_pos ⟨by omega, by omega⟩, addOp, addOp]

/-- Witness for C8 at a concrete long→short flip. -/
theorem c8_flip_pricing_witness :
    transOps ⟨1, 0, (1:ℤ), (100:ℚ)⟩ ⟨2, 1, -1, 90⟩ =
      [⟨2, 1, 90, .closeLong⟩, ⟨2, 1, 90, .openShort⟩] := by
  have h := (c8_flip_pricing ⟨1, 0, (1:ℤ), (100:ℚ)⟩ ⟨2, 1, -1, 90⟩).1 (by norm_num) (by norm_num)
  simpa using h

/-- Invariant for C2: a pair's recorded return in basis points, in terms of
its own recorded open/close prices (the denominator is the *open* price for
both directions). -/
def retFormulaOK (pr : Pair) : Prop :=
  (pr.direction = .short → pr.retBps = round2 ((pr.openPrice - pr.closePrice) / pr.openPrice * 10000)) ∧
  (pr.direction = .long → pr.retBps = round2 ((pr.closePrice - pr.openPrice) / pr.openPrice * 10000))

lemma retFormulaOK_mkPair (sym : String) (o c : Op) : retFormulaOK (mkPair sym o c) := by
  obtain ⟨bar, dt, price, k⟩ := o
  cases k <;> simp [mkPair, retFormulaOK]

lemma matchLoop_retFormulaOK (sym : String) (ops : List Op) :
    ∀ (stack : List Op) (acc ps : List Pair),
      (∀ pr ∈ acc, retFormulaOK pr) → matchLoop sym ops stack acc = .ok ps →
      ∀ pr ∈ ps, retFormulaOK pr := by
  induction ops with
  | nil =>
    intro stack acc ps hacc h pr hpr
    simp only [matchLoop, Except.ok.injEq] at h
    subst h
    exact hacc pr hpr
  | cons op rest ih =>
    intro stack acc ps hacc h pr hpr
    obtain ⟨bar, dt, price, k⟩ := op
    cases k
    case openLong => exact ih _ _ _ hacc (by simpa [matchLoop] using h) pr hpr
    case openShort => exact ih _ _ _ hacc (by simpa [matchLoop] using h) pr hpr
    case closeLong =>
      cases stack with
      | nil => simp [matchLoop] at h
      | cons o st =>
        refine ih st _ ps ?_ (by simpa [matchLoop] using h) pr hpr
        intro pr' hpr'
        rcases List.mem_append.1 hpr' with hmem | hmem
        · exact hacc pr' hmem
        · rw [List.mem_singleton.1 hmem]
          exact retFormulaOK_mkPair sym o _
    case closeShort =>
      cases stack with
      | nil => simp [matchLoop] at h
      | cons o st =>
        refine ih st _ ps ?_ (by simpa [matchLoop] using h) pr hpr
        intro pr' hpr'
        rcases List.mem_append.1 hpr' with hmem | hmem
        · exact hacc pr' hmem
        · rw [List.mem_singleton.1 hmem]
          exact retFormulaOK_mkPair sym o _

/-- C2 (amended): every matched pair's recorded return is computed with the
*open* price as denominator: `(open-close)/open` bps for short pairs and
`(close-open)/open` bps for long pairs (the source divides by
`open_op["price"]` in both branches). -/
theorem c2_amended_short_ret (sym : String) (digits : ℕ) (l : List WRow) (ps : List Pair)
    (h : getSymbolPairs sym digits l = .ok ps) : ∀ pr ∈ ps, retFormulaOK pr :=
  matchLoop_retFormulaOK sym _ _ _ _ (by simp) h

/-- Witness for C2 (amended): a concrete short round trip opened at 100 and
closed at 50 records `(100-50)/100*10000 = 5000` bps. -/
theorem c2_amended_short_ret_witness :
    retFormulaOK ⟨"X", .short, 0, 1, 100, 50, 2, (.openShort, .closeShort), 1, 5000⟩ := by
  refine c2_amended_short_ret "X" 2 [⟨0, -1/100, 100⟩, ⟨1, 0, 50⟩]
    [⟨"X", .short, 0, 1, 100, 50, 2, (.openShort, .closeShort), 1, 5000⟩] ?_ _ (by simp)
  norm_num [getSymbolPairs, buildRows, genOps, restOps, firstOps, transOps, addOp, matchLoop,
    mkPair, ratTrunc_def, round2, rne_def]

/-- C2 counterexample: for the short trade opened at 100 and closed at 50 the
code records 5000 bps, while the claim's formula `(open-close)/close` gives
10000 bps. -/
theorem c2_counterexample :
    (getSymbolPairs "X" 2 [⟨0, -1/100, 100⟩, ⟨1, 0, 50⟩]).map
        (fun ps => ps.map (fun p => p.retBps)) = .ok [5000] ∧
      round2 (((100:ℚ) - 50) / 50 * 10000) = 10000 ∧ (5000 : ℚ) ≠ 10000 := by
  refine ⟨?_, by norm_num [round2, rne_def], by norm_num⟩
  norm_num [getSymbolPairs, buildRows, genOps, restOps, firstOps, transOps, addOp, matchLoop,
    mkPair, ratTrunc_def, round2, rne_def, Except.map]

/-- C5 (amended): a close event reaching the matcher with an empty open stack
fails with the pop-from-empty-list error (Python `IndexError`), not with the
assertion (which only checks the operate label). -/
theorem c5_amended_pop_error (sym : String) (op : Op) (rest : List Op) (acc : List Pair)
    (h : op.operate = .closeLong ∨ op.operate = .closeShort) :
    matchLoop sym (op :: rest) [] acc = .error .popEmpty := by
  obtain ⟨bar, dt, price, k⟩ := op
  simp only at h
  rcases h with h | h <;> subst h <;> simp [matchLoop]

/-- Witness for C5 (amended) at a concrete close event. -/
theorem c5_amended_pop_error_witness :
    matchLoop "X" [⟨1, 0, 100, .closeLong⟩] [] [] = .error .popEmpty :=
  c5_amended_pop_error "X" ⟨1, 0, 100, .closeLong⟩ [] [] (Or.inl rfl)

/-- C5 counterexample: the failure on a close with empty stack is
`popEmpty` (an `IndexError`), which is not the assertion failure the claim
names. -/
theorem c5_counterexample :
    matchLoop "X" [⟨2, 5, 100, .closeShort⟩] [] [] = .error .popEmpty ∧
      (Except.error MatchErr.popEmpty : Except MatchErr (List Pair)) ≠ .error .assertFail := by
  constructor
  · simp [matchLoop]
  · simp

/-- The float64 volume at weight 0.57, digits 2: the float64 product
`0.57 * 100` is `8022036836253695 / 2^47 < 57`, so truncation gives 56. -/
lemma volumeFloat_057 : volumeFloat (57/100) 2 = 56 := by
  rw [volumeFloat, fl64_057, fl64_057_times_100, ratTrunc_def, if_pos (by norm_num)]
  norm_num

/-- The float64 volume at weight 0.5, digits 2 is exactly 50 (both roundings
are exact there). -/
lemma volumeFloat_half : volumeFloat (1/2) 2 = 50 := by
  have h1 : fl64 (1/2) = 1/2 := by
    have hlog : Int.log 2 |(1:ℚ)/2| = -1 := by
      rw [abs_of_pos (by norm_num)]
      exact intLog_eq_of_bounds (by norm_num) (by norm_num) (by norm_num)
    rw [fl64, if_neg (by norm_num), hlog]
    norm_num [rne_def]
  have h2 : fl64 ((1/2 : ℚ) * 10 ^ 2) = 50 := by
    have hlog : Int.log 2 |(1/2 : ℚ) * 10 ^ 2| = 5 := by
      rw [abs_of_pos (by norm_num)]
      exact intLog_eq_of_bounds (by norm_num) (by norm_num) (by norm_num)
    rw [fl64, if_neg (by norm_num), hlog]
    norm_num [rne_def]
  rw [volumeFloat, h1, h2, ratTrunc_def, if_pos (by norm_num)]
  norm_num

/-- C4 counterexample: at weight 0.57 with digits 2 the volume the code
computes is 56, while the nearest integer to the scaled weight is 57. -/
theorem c4_counterexample :
    volumeFloat (57/100) 2 = 56 ∧ round ((57/100 : ℚ) * 10 ^ 2) = 57 ∧ (56 : ℤ) ≠ 57 :=
  ⟨volumeFloat_057, by norm_num, by norm_num⟩

/-- C4 (amended): the lot volume is the float64 product `weight * 10^digits`
truncated toward zero, which can fall below the nearest integer when the
product is inexact: weight 0.57 gives 56, while an exactly representable
case such as weight 0.5 gives 50. -/
theorem c4_amended_trunc_volume : volumeFloat (57/100) 2 = 56 ∧ volumeFloat (1/2) 2 = 50 :=
  ⟨volumeFloat_057, volumeFloat_half⟩

/-! ## C10: pairs are chronologically ordered -/

/-- Event `a` is no later than event `b` (bar index and timestamp). -/
def opLE (a b : Op) : Prop := a.bar ≤ b.bar ∧ a.dt ≤ b.dt

/-- Row `a` is no later than row `b`. -/
def rowLE (a b : Row) : Prop := a.bar ≤ b.bar ∧ a.dt ≤ b.dt

lemma mem_addOp {o : Op} {bar dt : ℤ} {price : ℚ} {v : ℤ} {k : OpKind}
    (h : o ∈ addOp bar dt price v k) : o = ⟨bar, dt, price, k⟩ :=
  List.eq_of_mem_replicate h

lemma mem_firstOps {o : Op} {r : Row} (h : o ∈ firstOps r) : o.bar = r.bar ∧ o.dt = r.dt := by
  rw [firstOps] at h
  split_ifs at h
  · rw [mem_addOp h]
    exact ⟨rfl, rfl⟩
  · rw [mem_addOp h]
    exact ⟨rfl, rfl⟩
  · simp at h

lemma mem_transOps {o : Op} {r1 r2 : Row} (h : o ∈ transOps r1 r2) :
    o.bar = r2.bar ∧ o.dt = r2.dt := by
  rw [transOps] at h
  split_ifs at h <;>
    first
      | exact absurd h (List.not_mem_nil o)
      | (rw [mem_addOp h]; exact ⟨rfl, rfl⟩)
      | (rcases List.mem_append.1 h with h' | h' <;> (rw [mem_addOp h']; exact ⟨rfl, rfl⟩))

lemma mem_restOps : ∀ {rows : List Row} {o : Op}, o ∈ restOps rows →
    ∃ r, r ∈ rows.tail ∧ o.bar = r.bar ∧ o.dt = r.dt := by
  intro rows
  induction rows with
  | nil => intro o h; simp [restOps] at h
  | cons r tl ih =>
    intro o h
    cases tl with
    | nil => simp [restOps] at h
    | cons r2 tl2 =>
      rw [restOps] at h
      rcases List.mem_append.1 h with h' | h'
      · exact ⟨r2, by simp, mem_transOps h'⟩
      · obtain ⟨r', hr', hfields⟩ := ih h'
        exact ⟨r', List.mem_cons_of_mem r2 hr', hfields⟩

lemma restOps_pairwise : ∀ {rows : List Row}, rows.Pairwise rowLE →
    (restOps rows).Pairwise opLE := by
  intro rows
  induction rows with
  | nil => intro _; simp [restOps]
  | cons r tl ih =>
    intro h
    cases tl with
    | nil => simp [restOps]
    | cons r2 tl2 =>
      rw [restOps]
      rw [List.pairwise_append]
      refine ⟨?_, ih (List.Pairwise.of_cons h), ?_⟩
      · -- all events of one transition block share bar/dt
        refine List.Pairwise.imp_of_mem ?_ (List.pairwise_of_forall_mem_list fun a _ b _ => True.intro)
        intro a b ha hb _
        obtain ⟨ha1, ha2⟩ := mem_transOps ha
        obtain ⟨hb1, hb2⟩ := mem_transOps hb
        exact ⟨by rw [ha1, hb1], by rw [ha2, hb2]⟩
      · intro a ha b hb
        obtain ⟨ha1, ha2⟩ := mem_transOps ha
        obtain ⟨r', hr', hb1, hb2⟩ := mem_restOps hb
        have hle : rowLE r2 r' := by
          rcases List.rel_of_pairwise_cons (List.Pairwise.of_cons h) (by simpa using hr')
            with hrel
          exact hrel
        exact ⟨by rw [ha1, hb1]; exact hle.1, by rw [ha2, hb2]; exact hle.2⟩

lemma genOps_pairwise {rows : List Row} (h : rows.Pairwise rowLE) :
    (genOps rows).Pairwise opLE := by
  cases rows with
  | nil => simp [genOps]
  | cons r tl =>
    rw [genOps, List.pairwise_append]
    refine ⟨?_, restOps_pairwise h, ?_⟩
    · refine List.Pairwise.imp_of_mem ?_ (List.pairwise_of_forall_mem_list fun a _ b _ => True.intro)
      intro a b ha hb _
      obtain ⟨ha1, ha2⟩ := mem_firstOps ha
      obtain ⟨hb1, hb2⟩ := mem_firstOps hb
      exact ⟨by rw [ha1, hb1], by rw [ha2, hb2]⟩
    · intro a ha b hb
      obtain ⟨ha1, ha2⟩ := mem_firstOps ha
      obtain ⟨r', hr', hb1, hb2⟩ := mem_restOps hb
      have hle : rowLE r r' := List.rel_of_pairwise_cons h (by simpa using hr')
      exact ⟨by rw [ha1, hb1]; exact hle.1, by rw [ha2, hb2]; exact hle.2⟩

lemma buildRows_bar_lb {digits : ℕ} : ∀ {l : List WRow} {k : ℤ} {r : Row},
    r ∈ buildRows digits k l → k ≤ r.bar := by
  intro l
  induction l with
  | nil => intro k r h; simp [buildRows] at h
  | cons x xs ih =>
    intro k r h
    rw [buildRows] at h
    rcases List.mem_cons.1 h with h' | h'
    · rw [h']
    · exact le_trans (by omega) (ih h')

lemma mem_buildRows_dt {digits : ℕ} : ∀ {l : List WRow} {k : ℤ} {r : Row},
    r ∈ buildRows digits k l → ∃ x ∈ l, r.dt = x.dt := by
  intro l
  induction l with
  | nil => intro k r h; simp [buildRows] at h
  | cons x xs ih =>
    intro k r h
    rw [buildRows] at h
    rcases List.mem_cons.1 h with h' | h'
    · exact ⟨x, by simp, by rw [h']⟩
    · obtain ⟨x', hx', hdt⟩ := ih h'
      exact ⟨x', List.mem_cons_of_mem x hx', hdt⟩

lemma buildRows_pairwise {digits : ℕ} : ∀ {l : List WRow} {k : ℤ},
    l.Pairwise (fun a b : WRow => a.dt ≤ b.dt) → (buildRows digits k l).Pairwise rowLE := by
  intro l
  induction l with
  | nil => intro k _; simp [buildRows]
  | cons x xs ih =>
    intro k h
    rw [buildRows, List.pairwise_cons]
    refine ⟨?_, ih (List.Pairwise.of_cons h)⟩
    intro r hr
    obtain ⟨x', hx', hdt⟩ := mem_buildRows_dt hr
    refine ⟨?_, ?_⟩
    · show k ≤ r.bar
      exact le_trans (by omega) (buildRows_bar_lb hr)
    show x.dt ≤ r.dt
    rw [hdt]
    exact List.rel_of_pairwise_cons h hx'

/-- The orderedness property of C10 for a single pair. -/
def pairOrdered (pr : Pair) : Prop := pr.openDt ≤ pr.closeDt ∧ 1 ≤ pr.barsHeld

lemma pairOrdered_mkPair {sym : String} {o c : Op} (h : opLE o c) :
    pairOrdered (mkPair sym o c) := by
  obtain ⟨hbar, hdt⟩ := h
  obtain ⟨bar, dt, price, k⟩ := o
  have hb : bar ≤ c.bar := by simpa using hbar
  cases k <;>
    exact ⟨hdt, by show (1:ℤ) ≤ c.bar - bar + 1; omega⟩

lemma matchLoop_pairOrdered (sym : String) (ops : List Op) :
    ∀ (stack : List Op) (acc ps : List Pair),
      ops.Pairwise opLE →
      (∀ s ∈ stack, ∀ o ∈ ops, opLE s o) →
      (∀ pr ∈ acc, pairOrdered pr) →
      matchLoop sym ops stack acc = .ok ps →
      ∀ pr ∈ ps, pairOrdered pr := by
  induction ops with
  | nil =>
    intro stack acc ps _ _ hacc h pr hpr
    simp only [matchLoop, Except.ok.injEq] at h
    subst h
    exact hacc pr hpr
  | cons op rest ih =>
    intro stack acc ps hsort hstack hacc h pr hpr
    have hop : ∀ o ∈ rest, opLE op o := fun o ho => List.rel_of_pairwise_cons hsort ho
    have hrest : rest.Pairwise opLE := List.Pairwise.of_cons hsort
    obtain ⟨bar, dt, price, k⟩ := op
    cases k
    case openLong =>
      refine ih _ _ _ hrest ?_ hacc (by simpa [matchLoop] using h) pr hpr
      intro s hs o ho
      rcases List.mem_cons.1 hs with hs' | hs'
      · rw [hs']; exact hop o ho
      · exact hstack s hs' o (List.mem_cons_of_mem _ ho)
    case openShort =>
      refine ih _ _ _ hrest ?_ hacc (by simpa [matchLoop] using h) pr hpr
      intro s hs o ho
      rcases List.mem_cons.1 hs with hs' | hs'
      · rw [hs']; exact hop o ho
      · exact hstack s hs' o (List.mem_cons_of_mem _ ho)
    case closeLong =>
      cases stack with
      | nil => simp [matchLoop] at h
      | cons o st =>
        refine ih st _ ps hrest ?_ ?_ (by simpa [matchLoop] using h) pr hpr
        · intro s hs o' ho'
          exact hstack s (List.mem_cons_of_mem _ hs) o' (List.mem_cons_of_mem _ ho')
        · intro pr' hpr'
          rcases List.mem_append.1 hpr' with hmem | hmem
          · exact hacc pr' hmem
          · rw [List.mem_singleton.1 hmem]
            exact pairOrdered_mkPair (hstack o (by simp) _ (by simp))
    case closeShort =>
      cases stack with
      | nil => simp [matchLoop] at h
      | cons o st =>
        refine ih st _ ps hrest ?_ ?_ (by simpa [matchLoop] using h) pr hpr
        · intro s hs o' ho'
          exact hstack s (List.mem_cons_of_mem _ hs) o' (List.mem_cons_of_mem _ ho')
        · intro pr' hpr'
          rcases List.mem_append.1 hpr' with hmem | hmem
          · exact hacc pr' hmem
          · rw [List.mem_singleton.1 hmem]
            exact pairOrdered_mkPair (hstack o (by simp) _ (by simp))

/-- C10: when the input slice's timestamps are nondecreasing, every pair the
reconstruction emits has `open_time ≤ close_time` and holds at least one bar
(its matched open's bar index never exceeds the closing bar's index). -/
theorem c10_pairs_ordered (sym : String) (digits : ℕ) (l : List WRow) (ps : List Pair)
    (hdt : l.Pairwise fun a b => a.dt ≤ b.dt) (h : getSymbolPairs sym digits l = .ok ps) :
    ∀ pr ∈ ps, pr.openDt ≤ pr.closeDt ∧ 1 ≤ pr.barsHeld := by
  intro pr hpr
  exact matchLoop_pairOrdered sym _ [] [] ps
    (genOps_pairwise (buildRows_pairwise hdt)) (by simp) (by simp) h pr hpr

/-- Witness for C10 at the round trip `[0, 0.01, 0.01, 0]`. -/
theorem c10_pairs_ordered_witness :
    (⟨"X", .long, 1, 3, 101, 103, 3, (.openLong, .closeLong), 2, 9901/50⟩ : Pair).openDt ≤
        (⟨"X", .long, 1, 3, 101, 103, 3, (.openLong, .closeLong), 2, 9901/50⟩ : Pair).closeDt ∧
      1 ≤ (⟨"X", .long, 1, 3, 101, 103, 3, (.openLong, .closeLong), 2, 9901/50⟩ : Pair).barsHeld := by
  refine c10_pairs_ordered "X" 2 [⟨0, 0, 100⟩, ⟨1, 1/100, 101⟩, ⟨2, 1/100, 102⟩, ⟨3, 0, 103⟩]
    [⟨"X", .long, 1, 3, 101, 103, 3, (.openLong, .closeLong), 2, 9901/50⟩] ?_ ?_ _ (by simp)
  · norm_num [List.pairwise_cons]
  · norm_num [getSymbolPairs, buildRows, genOps, restOps, firstOps, transOps, addOp, matchLoop,
      mkPair, ratTrunc_def, round2, rne_def]

/-! ## Symbol return calculation (`WeightBacktest.get_symbol_daily`)

One symbol's slice is `n` bars indexed `0..n-1` with weight `w`, price `p`,
and calendar date `date` (dates abstracted as naturals); `fee` is
`self.fee_rate`.  Each pandas column is a function `ℕ → Option ℚ` where
`none` is the `NaN` produced by `shift` at the series boundary; the daily
`groupby(...).agg("sum")` skips `none` entries (`skipna=True`). -/

/-- One symbol's input slice for the daily-return computation. -/
structure DIn where
  n : ℕ
  w : ℕ → ℚ
  p : ℕ → ℚ
  date : ℕ → ℕ
  fee : ℚ

/-- `n1b = price.shift(-1) / price - 1`: the last bar has no next price. -/
def dn1b (D : DIn) (t : ℕ) : Option ℚ :=
  if t + 1 < D.n then some (D.p (t + 1) / D.p t - 1) else none

/-- `edge = weight * n1b`. -/
def dEdge (D : DIn) (t : ℕ) : Option ℚ := (dn1b D t).map fun r => D.w t * r

/-- `turnover = abs(weight.shift(1) - weight)`: the first bar has no previous
weight, so its turnover is `NaN`. -/
def dTurn (D : DIn) : ℕ → Option ℚ
  | 0 => none
  | t + 1 => some |D.w t - D.w (t + 1)|

/-- `cost = turnover * fee_rate`. -/
def dCost (D : DIn) (t : ℕ) : Option ℚ := (dTurn D t).map fun x => x * D.fee

/-- `return = edge - cost`. -/
def dRet (D : DIn) (t : ℕ) : Option ℚ := oSub (dEdge D t) (dCost D t)

/-- `long_weight = np.where(weight > 0, weight, 0)`. -/
def longW (D : DIn) (t : ℕ) : ℚ := if D.w t > 0 then D.w t else 0

/-- `short_weight = np.where(weight < 0, weight, 0)`. -/
def shortW (D : DIn) (t : ℕ) : ℚ := if D.w t < 0 then D.w t else 0

/-- `long_edge = long_weight * n1b`. -/
def dLongEdge (D : DIn) (t : ℕ) : Option ℚ := (dn1b D t).map fun r => longW D t * r

/-- `short_edge = short_weight * n1b`. -/
def dShortEdge (D : DIn) (t : ℕ) : Option ℚ := (dn1b D t).map fun r => shortW D t * r

/-- `long_turnover = abs(long_weight.shift(1) - long_weight)`. -/
def dLongTurn (D : DIn) : ℕ → Option ℚ
  | 0 => none
  | t + 1 => some |longW D t - longW D (t + 1)|

/-- `short_turnover = abs(short_weight.shift(1) - short_weight)`. -/
def dShortTurn (D : DIn) : ℕ → Option ℚ
  | 0 => none
  | t + 1 => some |shortW D t - shortW D (t + 1)|

/-- `long_cost = long_turnover * fee_rate`. -/
def dLongCost (D : DIn) (t : ℕ) : Option ℚ := (dLongTurn D t).map fun x => x * D.fee

/-- `short_cost = short_turnover * fee_rate`. -/
def dShortCost (D : DIn) (t : ℕ) : Option ℚ := (dShortTurn D t).map fun x => x * D.fee

/-- `long_return = long_edge - long_cost`. -/
def dLongRet (D : DIn) (t : ℕ) : Option ℚ := oSub (dLongEdge D t) (dLongCost D t)

/-- `short_return = short_edge - short_cost`. -/
def dShortRet (D : DIn) (t : ℕ) : Option ℚ := oSub (dShortEdge D t) (dShortCost D t)

/-- `groupby(dt.date).agg("sum")` of one column for one date: pandas sums the
non-`NaN` entries of the group (`skipna=True`; an all-`NaN` group sums to 0). -/
def dailySum (D : DIn) (col : ℕ → Option ℚ) (d : ℕ) : ℚ :=
  ∑ t in Finset.range D.n, if D.date t = d then (col t).getD 0 else 0

lemma oSub_none (a : Option ℚ) : oSub a none = none := by cases a <;> rfl

lemma longW_eq (D : DIn) (t : ℕ) : longW D t = max (D.w t) 0 := by
  rcases lt_trichotomy (D.w t) 0 with h | h | h <;>
    simp [longW, max_eq_left, max_eq_right, le_of_lt, h]

lemma shortW_eq (D : DIn) (t : ℕ) : shortW D t = min (D.w t) 0 := by
  rcases lt_trichotomy (D.w t) 0 with h | h | h <;>
    simp [shortW, min_eq_left, min_eq_right, le_of_lt, h]

/-- Turnover decomposes exactly over the long/short weight split. -/
lemma turnDecomp (x y : ℚ) : |max x 0 - max y 0| + |min x 0 - min y 0| = |x - y| := by
  rcases le_total x 0 with hx | hx <;> rcases le_total y 0 with hy | hy
  · rw [max_eq_right hx, max_eq_right hy, min_eq_left hx, min_eq_left hy]
    simp
  · rw [max_eq_right hx, max_eq_left hy, min_eq_left hx, min_eq_right hy,
      zero_sub, abs_neg, sub_zero, abs_of_nonneg hy, abs_of_nonpos hx,
      abs_of_nonpos (by linarith : x - y ≤ 0)]
    ring
  · rw [max_eq_left hx, max_eq_right hy, min_eq_right hx, min_eq_left hy,
      zero_sub, abs_neg, sub_zero, abs_of_nonneg hx, abs_of_nonpos hy,
      abs_of_nonneg (by linarith : 0 ≤ x - y)]
    ring
  · rw [max_eq_left hx, max_eq_left hy, min_eq_right hx, min_eq_right hy]
    simp

/-- C7: on every bar the long-side net return plus the short-side net return
equals the undecomposed net return — exactly (including the `NaN` bars: the
first bar, whose turnover is undefined, and the last bar, whose forward
return is undefined, are `NaN` on both sides). -/
theorem c7_long_short_decomposition (D : DIn) (t : ℕ) :
    oAdd (dLongRet D t) (dShortRet D t) = dRet D t := by
  cases t with
  | zero =>
    simp only [dRet, dLongRet, dShortRet, dCost, dLongCost, dShortCost, dTurn, dLongTurn,
      dShortTurn, show Option.map (fun x => x * D.fee) (none : Option ℚ) = none from rfl,
      oSub_none]
    rfl
  | succ t' =>
    rcases hn : dn1b D (t' + 1) with _ | r
    · simp only [dRet, dLongRet, dShortRet, dEdge, dLongEdge, dShortEdge, hn]
      rfl
    · have h1 : longW D (t' + 1) + shortW D (t' + 1) = D.w (t' + 1) := by
        rw [longW_eq, shortW_eq, max_add_min]
        ring
      have h2 : |longW D t' - longW D (t' + 1)| + |shortW D t' - shortW D (t' + 1)| =
          |D.w t' - D.w (t' + 1)| := by
        rw [longW_eq, longW_eq, shortW_eq, shortW_eq, turnDecomp]
      simp only [dRet, dLongRet, dShortRet, dCost, dLongCost, dShortCost, dTurn, dLongTurn,
        dShortTurn, dEdge, dLongEdge, dShortEdge, hn]
      show some _ = some _
      rw [Option.some.injEq]
      linear_combination r * h1 - D.fee * h2

/-- C3 (amended): the turnover of every bar `t ≥ 1` is `|w[t] - w[t-1]|`, but
the first bar's turnover is `NaN` (`shift(1)` has no previous weight — it is
*not* treated as 0), so the first bar contributes no cost: the daily cost sum
only collects bars `t ≥ 1`. -/
theorem c3_amended_first_bar_turnover (D : DIn) :
    dTurn D 0 = none ∧
      (∀ t, 1 ≤ t → dTurn D t = some |D.w t - D.w (t - 1)|) ∧
      (∀ d, dailySum D (dCost D) d =
        ∑ t in Finset.range D.n,
          if D.date t = d ∧ 1 ≤ t then |D.w t - D.w (t - 1)| * D.fee else 0) := by
  refine ⟨rfl, ?_, ?_⟩
  · intro t ht
    cases t with
    | zero => omega
    | succ t' =>
      rw [dTurn, abs_sub_comm]
      simp
  · intro d
    rw [dailySum]
    refine Finset.sum_congr rfl ?_
    intro t _
    cases t with
    | zero => simp [dCost, dTurn]
    | succ t' =>
      by_cases hd : D.date (t' + 1) = d
      · simp [dCost, dTurn, hd, abs_sub_comm]
      · simp [hd]

/-- Witness for C3 (amended) on a concrete two-bar series: bar 1's turnover
is defined, bar 0's is `NaN`, and the daily cost sum collects only bar 1. -/
theorem c3_amended_first_bar_turnover_witness :
    dTurn ⟨2, fun _ => 1/2, fun t => if t = 0 then 100 else 110, fun _ => 0, 1/5000⟩ 1 =
        some |(1:ℚ)/2 - 1/2| ∧
      dTurn ⟨2, fun _ => 1/2, fun t => if t = 0 then 100 else 110, fun _ => 0, 1/5000⟩ 0 = none := by
  constructor
  · have h := (c3_amended_first_bar_turnover
      ⟨2, fun _ => 1/2, fun t => if t = 0 then 100 else 110, fun _ => 0, 1/5000⟩).2.1 1 (by norm_num)
    simpa using h
  · exact (c3_amended_first_bar_turnover
      ⟨2, fun _ => 1/2, fun t => if t = 0 then 100 else 110, fun _ => 0, 1/5000⟩).1

/-- C3 counterexample: for the series with weights `[0.5, 0.5]`, prices
`[100, 110]`, one calendar date and fee 0.0002 the daily aggregated cost is 0:
the claimed first-bar cost `|w[0]| * fee = 0.0001` is *not* charged. -/
theorem c3_counterexample :
    dailySum ⟨2, fun _ => 1/2, fun t => if t = 0 then 100 else 110, fun _ => 0, 1/5000⟩
        (dCost ⟨2, fun _ => 1/2, fun t => if t = 0 then 100 else 110, fun _ => 0, 1/5000⟩) 0 = 0 ∧
      |(1:ℚ)/2| * (1/5000) = 1/10000 ∧ (0 : ℚ) ≠ 1/10000 := by
  refine ⟨?_, by rw [abs_of_nonneg (by norm_num : (0:ℚ) ≤ 1/2)]; norm_num, by norm_num⟩
  rw [dailySum]
  norm_num [Finset.sum_range_succ, dCost, dTurn]

lemma getD_dEdge (D : DIn) (t : ℕ) :
    (dEdge D t).getD 0 = if t + 1 < D.n then D.w t * (D.p (t + 1) / D.p t - 1) else 0 := by
  rw [dEdge, dn1b]
  split_ifs <;> rfl

lemma getD_dn1b (D : DIn) (t : ℕ) :
    (dn1b D t).getD 0 = if t + 1 < D.n then D.p (t + 1) / D.p t - 1 else 0 := by
  rw [dn1b]
  split_ifs <;> rfl

lemma getD_dTurn (D : DIn) (t : ℕ) :
    (dTurn D t).getD 0 = if 1 ≤ t then |D.w t - D.w (t - 1)| else 0 := by
  cases t with
  | zero => rfl
  | succ t' => rw [dTurn, abs_sub_comm]; simp

lemma getD_dCost (D : DIn) (t : ℕ) :
    (dCost D t).getD 0 = if 1 ≤ t then |D.w t - D.w (t - 1)| * D.fee else 0 := by
  cases t with
  | zero => rfl
  | succ t' => rw [dCost, dTurn, abs_sub_comm]; simp

lemma getD_dRet (D : DIn) (t : ℕ) :
    (dRet D t).getD 0 = if 1 ≤ t ∧ t + 1 < D.n then
      D.w t * (D.p (t + 1) / D.p t - 1) - |D.w t - D.w (t - 1)| * D.fee else 0 := by
  cases t with
  | zero => simp [dRet, dCost, dTurn, oSub_none]
  | succ t' =>
    rw [dRet, dEdge, dn1b, dCost, dTurn, abs_sub_comm]
    split_ifs with h1 h2 h2 <;> simp_all [oSub]

lemma getD_dLongRet (D : DIn) (t : ℕ) :
    (dLongRet D t).getD 0 = if 1 ≤ t ∧ t + 1 < D.n then
      longW D t * (D.p (t + 1) / D.p t - 1) - |longW D t - longW D (t - 1)| * D.fee else 0 := by
  cases t with
  | zero => simp [dLongRet, dLongCost, dLongTurn, oSub_none]
  | succ t' =>
    rw [dLongRet, dLongEdge, dn1b, dLongCost, dLongTurn, abs_sub_comm]
    split_ifs with h1 h2 h2 <;> simp_all [oSub]

lemma getD_dShortRet (D : DIn) (t : ℕ) :
    (dShortRet D t).getD 0 = if 1 ≤ t ∧ t + 1 < D.n then
      shortW D t * (D.p (t + 1) / D.p t - 1) - |shortW D t - shortW D (t - 1)| * D.fee else 0 := by
  cases t with
  | zero => simp [dShortRet, dShortCost, dShortTurn, oSub_none]
  | succ t' =>
    rw [dShortRet, dShortEdge, dn1b, dShortCost, dShortTurn, abs_sub_comm]
    split_ifs with h1 h2 h2 <;> simp_all [oSub]

/-- C9: no `NaN` survives into the daily aggregates.  Every daily field is a
plain rational equal to a sum over the bars on which the field is defined —
in particular the last bar's undefined forward return contributes zero to the
`edge`/`n1b`/`return` sums, and the long/short decompositions behave the same
way. -/
theorem c9_daily_no_nan (D : DIn) (d : ℕ) :
    dailySum D (dEdge D) d =
        (∑ t in Finset.range D.n,
          if D.date t = d ∧ t + 1 < D.n then D.w t * (D.p (t + 1) / D.p t - 1) else 0) ∧
      dailySum D (dn1b D) d =
        (∑ t in Finset.range D.n,
          if D.date t = d ∧ t + 1 < D.n then D.p (t + 1) / D.p t - 1 else 0) ∧
      dailySum D (dTurn D) d =
        (∑ t in Finset.range D.n,
          if D.date t = d ∧ 1 ≤ t then |D.w t - D.w (t - 1)| else 0) ∧
      dailySum D (dCost D) d =
        (∑ t in Finset.range D.n,
          if D.date t = d ∧ 1 ≤ t then |D.w t - D.w (t - 1)| * D.fee else 0) ∧
      dailySum D (dRet D) d =
        (∑ t in Finset.range D.n,
          if D.date t = d ∧ 1 ≤ t ∧ t + 1 < D.n then
            D.w t * (D.p (t + 1) / D.p t - 1) - |D.w t - D.w (t - 1)| * D.fee else 0) ∧
      dailySum D (dLongRet D) d =
        (∑ t in Finset.range D.n,
          if D.date t = d ∧ 1 ≤ t ∧ t + 1 < D.n then
            longW D t * (D.p (t + 1) / D.p t - 1) - |longW D t - longW D (t - 1)| * D.fee else 0) ∧
      dailySum D (dShortRet D) d =
        (∑ t in Finset.range D.n,
          if D.date t = d ∧ 1 ≤ t ∧ t + 1 < D.n then
            shortW D t * (D.p (t + 1) / D.p t - 1) - |shortW D t - shortW D (t - 1)| * D.fee else 0) := by
  refine ⟨?_, ?_, ?_, ?_, ?_, ?_, ?_⟩ <;>
      (rw [dailySum]; refine Finset.sum_congr rfl fun t _ => ?_) <;>
    first
      | (rw [getD_dEdge]; split_ifs <;> simp_all)
      | (rw [getD_dn1b]; split_ifs <;> simp_all)
      | (rw [getD_dTurn]; split_ifs <;> simp_all)
      | (rw [getD_dCost]; split_ifs <;> simp_all)
      | (rw [getD_dRet]; split_ifs <;> simp_all)
      | (rw [getD_dLongRet]; split_ifs <;> simp_all)
      | (rw [getD_dShortRet]; split_ifs <;> simp_all)

/-! ## Stop-loss filter (`stoploss_by_direction`)

One symbol's chronologically sorted slice (the source applies this body to
each `groupby("symbol")` group).  Columns are per-index functions; the
`order_id` is the 0-based group number of runs of constant direction
(`ngroup` of the cumulative count of direction changes); `hold_returns` and
`min_hold_returns` are the per-order cumulative sum and running minimum with
pandas `skipna` semantics (only the last bar's entries are `NaN`). -/

/-- One symbol's input slice for the stop-loss filter. -/
structure SLIn where
  n : ℕ
  w : ℕ → ℚ
  p : ℕ → ℚ

/-- `direction = np.sign(weight)`. -/
def slDir (A : SLIn) (t : ℕ) : ℤ :=
  if A.w t > 0 then 1 else if A.w t < 0 then -1 else 0

/-- `order_id`: increments at every direction change (first row starts
group 0; `ngroup` numbers groups from 0 in order of appearance). -/
def slOrderId (A : SLIn) : ℕ → ℕ
  | 0 => 0
  | t + 1 => slOrderId A t + (if slDir A (t + 1) = slDir A t then 0 else 1)

/-- `n1b = price.shift(-1) / price - 1`. -/
def slN1b (A : SLIn) (t : ℕ) : Option ℚ :=
  if t + 1 < A.n then some (A.p (t + 1) / A.p t - 1) else none

/-- `returns = n1b * weight` (the pre-filter weight). -/
def slRet (A : SLIn) (t : ℕ) : Option ℚ := (slN1b A t).map fun r => r * A.w t

/-- `hold_returns = returns.groupby(order_id).cumsum()` (pandas cumsum skips
`NaN` entries; a `NaN` row stays `NaN`). -/
def slHold (A : SLIn) (t : ℕ) : Option ℚ :=
  (slRet A t).map fun v =>
    (∑ i in Finset.range t, if slOrderId A i = slOrderId A t then (slRet A i).getD 0 else 0) + v

/-- `min_hold_returns = hold_returns.groupby(order_id).cummin()` (running
minimum over the non-`NaN` same-order entries so far; a `NaN` row stays
`NaN`). -/
def slMinHold (A : SLIn) (t : ℕ) : Option ℚ :=
  (slHold A t).map fun v =>
    (((List.range t).filterMap fun i =>
      if slOrderId A i = slOrderId A t then slHold A i else none).foldl min v)

/-- The breach test `min_hold_returns < -stoploss` (false on a `NaN` row, as
in pandas). -/
def slBreach (A : SLIn) (s : ℚ) (t : ℕ) : Bool :=
  (slMinHold A t).elim false fun m => decide (m < -s)

/-- `order_id == order_id.shift(1)` (false on the first row). -/
def slSameOrd (A : SLIn) : ℕ → Bool
  | 0 => false
  | t + 1 => decide (slOrderId A (t + 1) = slOrderId A t)

/-- `is_stop = (min_hold_returns < -stoploss) & (order_id == order_id.shift(1))`. -/
def slIsStop (A : SLIn) (s : ℚ) (t : ℕ) : Bool := slBreach A s t && slSameOrd A t

/-- `c1 = is_stop.shift(1) & (order_id == order_id.shift(1))`: the zeroing
mask (false on the first row). -/
def slStopNext (A : SLIn) (s : ℚ) : ℕ → Bool
  | 0 => false
  | t + 1 => slIsStop A s t && slSameOrd A (t + 1)

/-- The filtered weight: `weight` is set to 0 where the mask holds
(`raw_weight` keeps the input `A.w`). -/
def slWeight (A : SLIn) (s : ℚ) (t : ℕ) : ℚ := if slStopNext A s t then 0 else A.w t

lemma foldl_min_le_init : ∀ (l : List ℚ) (v : ℚ), l.foldl min v ≤ v := by
  intro l
  induction l with
  | nil => intro v; exact le_refl v
  | cons x xs ih =>
    intro v
    calc (x :: xs).foldl min v = xs.foldl min (min v x) := rfl
      _ ≤ min v x := ih _
      _ ≤ v := min_le_left _ _

lemma foldl_min_le_mem : ∀ (l : List ℚ) (v x : ℚ), x ∈ l → l.foldl min v ≤ x := by
  intro l
  induction l with
  | nil => intro v x h; simp at h
  | cons y ys ih =>
    intro v x h
    rcases List.mem_cons.1 h with h' | h'
    · calc (y :: ys).foldl min v = ys.foldl min (min v y) := rfl
        _ ≤ min v y := foldl_min_le_init _ _
        _ ≤ y := min_le_right _ _
        _ = x := h'.symm
    · exact ih (min v y) x h'

lemma foldl_min_mem : ∀ (l : List ℚ) (v : ℚ), l.foldl min v ∈ v :: l := by
  intro l
  induction l with
  | nil => intro v; simp
  | cons x xs ih =>
    intro v
    have h := ih (min v x)
    rcases List.mem_cons.1 h with h' | h'
    · show xs.foldl min (min v x) ∈ v :: x :: xs
      rcases min_choice v x with hm | hm
      · rw [h', hm]; simp
      · rw [h', hm]; simp
    · show xs.foldl min (min v x) ∈ v :: x :: xs
      exact List.mem_cons_of_mem v (List.mem_cons_of_mem x h')

lemma slOrderId_le_succ (A : SLIn) (t : ℕ) : slOrderId A t ≤ slOrderId A (t + 1) := by
  rw [slOrderId]
  omega

lemma slOrderId_mono (A : SLIn) {t1 t2 : ℕ} (h : t1 ≤ t2) : slOrderId A t1 ≤ slOrderId A t2 := by
  induction t2 with
  | zero =>
    have h0 : t1 = 0 := by omega
    rw [h0]
  | succ t ih =>
    rcases Nat.lt_or_ge t1 (t + 1) with h' | h'
    · exact le_trans (ih (by omega)) (slOrderId_le_succ A t)
    · have : t1 = t + 1 := by omega
      rw [this]

lemma slOrderId_succ_ne (A : SLIn) (t : ℕ) (h : slDir A (t + 1) ≠ slDir A t) :
    slOrderId A (t + 1) = slOrderId A t + 1 := by
  rw [slOrderId, if_neg h]

lemma slOrderId_succ_eq (A : SLIn) (t : ℕ) (h : slDir A (t + 1) = slDir A t) :
    slOrderId A (t + 1) = slOrderId A t := by
  rw [slOrderId, if_pos h]
  omega

/-- Within one run of constant direction the order id is constant. -/
lemma slOrderId_seg (A : SLIn) (a b : ℕ)
    (hseg : ∀ t, t ≤ b → a ≤ t → slDir A t = slDir A a) :
    ∀ t1 t2, a ≤ t1 → t1 ≤ t2 → t2 ≤ b → slOrderId A t2 = slOrderId A t1 := by
  intro t1 t2 h1 h12 h2b
  induction t2 with
  | zero =>
    have : t1 = 0 := by omega
    rw [this]
  | succ t ih =>
    rcases Nat.lt_or_ge t1 (t + 1) with h' | h'
    · have heq : slOrderId A (t + 1) = slOrderId A t := by
        refine slOrderId_succ_eq A t ?_
        rw [hseg (t + 1) h2b (by omega), hseg t (by omega) (by omega)]
      rw [heq]
      exact ih (by omega) (by omega)
    · have : t1 = t + 1 := by omega
      rw [this]

/-- Bars strictly before a maximal run have strictly smaller order ids. -/
lemma slOrderId_lt_of_before (A : SLIn) (a : ℕ) (ha : 1 ≤ a)
    (hne : slDir A (a - 1) ≠ slDir A a) {i : ℕ} (hi : i < a) :
    slOrderId A i < slOrderId A a := by
  have hstep : slOrderId A a = slOrderId A (a - 1) + 1 := by
    have ha' : a - 1 + 1 = a := by omega
    have := slOrderId_succ_ne A (a - 1) (by rw [ha']; exact Ne.symm hne)
    rw [ha'] at this
    exact this
  have hmono : slOrderId A i ≤ slOrderId A (a - 1) := slOrderId_mono A (by omega)
  omega

lemma mem_minHold_list {A : SLIn} {t : ℕ} {x : ℚ} :
    (x ∈ (List.range t).filterMap fun i =>
        if slOrderId A i = slOrderId A t then slHold A i else none) ↔
      ∃ i, i < t ∧ slOrderId A i = slOrderId A t ∧ slHold A i = some x := by
  rw [List.mem_filterMap]
  constructor
  · rintro ⟨i, hi, hfi⟩
    rw [List.mem_range] at hi
    by_cases h : slOrderId A i = slOrderId A t
    · rw [if_pos h] at hfi
      exact ⟨i, hi, h, hfi⟩
    · rw [if_neg h] at hfi
      exact absurd hfi (by simp)
  · rintro ⟨i, hi, h, hx⟩
    refine ⟨i, List.mem_range.2 hi, ?_⟩
    rw [if_pos h]
    exact hx

lemma slHold_some {A : SLIn} {t : ℕ} (h : t + 1 < A.n) : ∃ v, slHold A t = some v := by
  rw [slHold, slRet, slN1b, if_pos h]
  exact ⟨_, rfl⟩

/-- Once the running minimum of a segment breaches, it stays breached on
every later non-`NaN` bar of the same segment (the running minimum cannot
recover). -/
lemma slBreach_persists (A : SLIn) (s : ℚ) {a b k t : ℕ}
    (hseg : ∀ u, u ≤ b → a ≤ u → slDir A u = slDir A a)
    (hleft : a = 0 ∨ slDir A (a - 1) ≠ slDir A a)
    (hak : a ≤ k) (hkb : k ≤ b)
    (hbr : slBreach A s k = true)
    (hkt : k ≤ t) (htb : t ≤ b) (ht1 : t + 1 < A.n) :
    slBreach A s t = true := by
  rcases Nat.eq_or_lt_of_le hkt with rfl | hkt'
  · exact hbr
  -- extract the breaching minimum at bar k
  rcases hmh : slMinHold A k with _ | mk
  · rw [slBreach, hmh] at hbr
    simp at hbr
  have hmk : mk < -s := by
    rw [slBreach, hmh] at hbr
    simpa using hbr
  rcases hh : slHold A k with _ | vk
  · rw [slMinHold, hh] at hmh
    simp at hmh
  have hmk_fold : ((List.range k).filterMap fun i =>
      if slOrderId A i = slOrderId A k then slHold A i else none).foldl min vk = mk := by
    rw [slMinHold, hh] at hmh
    simpa using hmh
  -- the minimum is attained at some index i* in [a, k]
  have hattain : ∃ i, a ≤ i ∧ i ≤ k ∧ slHold A i = some mk := by
    have hmem := foldl_min_mem ((List.range k).filterMap fun i =>
      if slOrderId A i = slOrderId A k then slHold A i else none) vk
    rw [hmk_fold] at hmem
    rcases List.mem_cons.1 hmem with hh' | hh'
    · exact ⟨k, hak, le_refl k, by rw [hh, hh']⟩
    · obtain ⟨i, hik, hgrp, hhold⟩ := mem_minHold_list.1 hh'
      refine ⟨i, ?_, by omega, hhold⟩
      by_contra hia
      have ha1 : 1 ≤ a := by omega
      have hne : slDir A (a - 1) ≠ slDir A a := by
        rcases hleft with h0 | h0
        · omega
        · exact h0
      have hlt : slOrderId A i < slOrderId A a :=
        slOrderId_lt_of_before A a ha1 hne (by omega)
      have hka : slOrderId A k = slOrderId A a := slOrderId_seg A a b hseg a k (le_refl a) hak hkb
      omega
  obtain ⟨i, hai, hik, hholdi⟩ := hattain
  -- the bar-t minimum is at most mk
  obtain ⟨vt, hvt⟩ := slHold_some ht1
  have hgrpit : slOrderId A i = slOrderId A t := by
    have h1 := slOrderId_seg A a b hseg i t hai (by omega) htb
    exact h1.symm
  have hmem_t : mk ∈ (List.range t).filterMap fun j =>
      if slOrderId A j = slOrderId A t then slHold A j else none :=
    mem_minHold_list.2 ⟨i, by omega, hgrpit, hholdi⟩
  have hle : ((List.range t).filterMap fun j =>
      if slOrderId A j = slOrderId A t then slHold A j else none).foldl min vt ≤ mk :=
    foldl_min_le_mem _ vt mk hmem_t
  rw [slBreach, slMinHold, hvt]
  show decide _ = true
  rw [decide_eq_true_eq]
  exact lt_of_le_of_lt hle hmk

/-- C1 (amended): for a maximal run `[a, b]` of constant direction in which
`min_hold_returns` first crosses below `-stoploss` at bar `k`, **provided the
breach bar `k` is not the first bar of the segment** (`a < k`), the filter
leaves the weight untouched through bar `k`, zeroes every later bar of the
segment, and the first bar of the following segment carries the unfiltered
weight again.  (When the breach happens on the segment's first bar the
`order_id == order_id.shift(1)` conjunct of `is_stop` suppresses the flag and
zeroing only starts one bar later — see the counterexample.) -/
theorem c1_amended_stoploss (A : SLIn) (s : ℚ) (a b k : ℕ)
    (hb : b < A.n) (hak : a < k) (hkb : k ≤ b)
    (hseg : ∀ t, t ≤ b → a ≤ t → slDir A t = slDir A a)
    (hleft : a = 0 ∨ slDir A (a - 1) ≠ slDir A a)
    (hright : b + 1 = A.n ∨ slDir A (b + 1) ≠ slDir A b)
    (hfirst : ∀ t, t < k → a ≤ t → slBreach A s t = false)
    (hbr : slBreach A s k = true) :
    (∀ t, t ≤ k → a ≤ t → slWeight A s t = A.w t) ∧
      (∀ t, t ≤ b → k < t → slWeight A s t = 0) ∧
      (b + 1 < A.n → slWeight A s (b + 1) = A.w (b + 1)) := by
  refine ⟨?_, ?_, ?_⟩
  · -- bars a..k keep the raw weight
    intro t htk hat
    cases t with
    | zero => simp [slWeight, slStopNext]
    | succ t' =>
      have hsn : slStopNext A s (t' + 1) = false := by
        rcases Nat.lt_or_ge t' a with hlt | hge
        · -- t'+1 = a: the first bar of the segment is never zeroed
          have ha1 : a = t' + 1 := by omega
          have hne : slDir A (a - 1) ≠ slDir A a := by
            rcases hleft with h0 | h0
            · omega
            · exact h0
          have hso : slSameOrd A (t' + 1) = false := by
            rw [slSameOrd, decide_eq_false_iff_not]
            have hlt2 : slOrderId A t' < slOrderId A (t' + 1) := by
              have hx := slOrderId_lt_of_before A a (by omega) hne (i := t') (by omega)
              rw [ha1] at hx
              exact hx
            omega
          rw [slStopNext, hso]
          simp
        · -- a ≤ t' < k: no breach yet, is_stop is false
          have hbf : slBreach A s t' = false := hfirst t' (by omega) hge
          rw [slStopNext, slIsStop, hbf]
          simp
      simp [slWeight, hsn]
  · -- bars k+1..b are zeroed
    intro t htb hkt
    cases t with
    | zero => omega
    | succ t' =>
      have hbt' : slBreach A s t' = true :=
        slBreach_persists A s hseg hleft (by omega) hkb hbr (by omega) (by omega)
          (by omega)
      have hso1 : slSameOrd A t' = true := by
        cases t' with
        | zero => omega
        | succ t'' =>
          rw [slSameOrd, decide_eq_true_eq]
          exact slOrderId_seg A a b hseg t'' (t'' + 1) (by omega) (by omega) (by omega)
      have hso2 : slSameOrd A (t' + 1) = true := by
        rw [slSameOrd, decide_eq_true_eq]
        exact slOrderId_seg A a b hseg t' (t' + 1) (by omega) (by omega) (by omega)
      have hsn : slStopNext A s (t' + 1) = true := by
        rw [slStopNext, slIsStop, hbt', hso1, hso2]
        rfl
      simp [slWeight, hsn]
  · -- the first bar of the next segment keeps the raw weight
    intro hb1
    have hne : slDir A (b + 1) ≠ slDir A b := by
      rcases hright with h0 | h0
      · omega
      · exact h0
    have hso : slSameOrd A (b + 1) = false := by
      rw [slSameOrd, decide_eq_false_iff_not]
      have := slOrderId_succ_ne A b hne
      omega
    have hsn : slStopNext A s (b + 1) = false := by
      rw [slStopNext, hso]
      simp
    simp [slWeight, hsn]

/-- Witness for C1 (amended): weights all 1, prices `[100, 100, 90, 90]`,
stoploss 3%: the segment is the whole series, the breach first occurs at bar
`k = 1` (not the segment's first bar), bar 1 keeps weight 1, bars 2 and 3 are
zeroed. -/
theorem c1_amended_stoploss_witness :
    slWeight ⟨4, fun _ => 1, fun t => if t < 2 then 100 else 90⟩ (3/100) 1 = 1 ∧
      slWeight ⟨4, fun _ => 1, fun t => if t < 2 then 100 else 90⟩ (3/100) 2 = 0 ∧
      slWeight ⟨4, fun _ => 1, fun t => if t < 2 then 100 else 90⟩ (3/100) 3 = 0 := by
  have h := c1_amended_stoploss ⟨4, fun _ => 1, fun t => if t < 2 then 100 else 90⟩ (3/100) 0 3 1
    (by norm_num) (by norm_num) (by norm_num)
    (by intro t _ _; norm_num [slDir])
    (Or.inl rfl) (Or.inl rfl)
    (by
      intro t ht _
      interval_cases t
      norm_num [slBreach, slMinHold, slHold, slRet, slN1b])
    (by norm_num [slBreach, slMinHold, slHold, slRet, slN1b, slOrderId, slDir,
      List.range_succ, Finset.sum_range_succ, Finset.sum_range_zero, min_def,
      List.filterMap_cons, List.filterMap_nil, List.foldl_cons, List.foldl_nil])
  exact ⟨h.1 1 (by norm_num) (by norm_num), h.2.1 2 (by norm_num) (by norm_num),
    h.2.1 3 (by norm_num) (by norm_num)⟩

/-- C1 counterexample: weights all 1 (a single order segment), prices
`[100, 90, 90]`, stoploss 3%.  `min_hold_returns` first crosses below `-0.03`
already at bar `k = 0`, but bar `k + 1 = 1` keeps its nonzero weight — the
`order_id == order_id.shift(1)` conjunct of `is_stop` suppresses the flag on
a segment's first bar, so zeroing starts at `k + 2`, contradicting the
claimed "zero on every bar from k+1". -/
theorem c1_counterexample :
    slDir ⟨3, fun _ => 1, fun t => if t = 0 then 100 else 90⟩ 0 = 1 ∧
      slDir ⟨3, fun _ => 1, fun t => if t = 0 then 100 else 90⟩ 1 = 1 ∧
      slDir ⟨3, fun _ => 1, fun t => if t = 0 then 100 else 90⟩ 2 = 1 ∧
      slBreach ⟨3, fun _ => 1, fun t => if t = 0 then 100 else 90⟩ (3/100) 0 = true ∧
      slWeight ⟨3, fun _ => 1, fun t => if t = 0 then 100 else 90⟩ (3/100) 1 = 1 ∧
      (1 : ℚ) ≠ 0 := by
  refine ⟨by norm_num [slDir], by norm_num [slDir], by norm_num [slDir], ?_, ?_, by norm_num⟩
  · norm_num [slBreach, slMinHold, slHold, slRet, slN1b]
  · norm_num [slWeight, slStopNext, slIsStop, slSameOrd, slBreach, slMinHold, slHold, slRet,
      slN1b, slOrderId, slDir]
